import Mathlib

/-!
Verification of the coordinator bookkeeping engine of `dopt`
(`src/dopt/optimizers/optimizer.py`, class `Optimizer`).

The Python code is shallowly embedded: the mutable object state
(`self.observations`, `self.pending_candidates`, and the observation
file) becomes an explicit `State` record threaded through pure
functions; exceptions become explicit failure flags / error values.

Modelling conventions, fixed once here:
* Candidates are Python dicts `{"<param>": <number>, ..., "id": <int>}`.
  We model them as a record of an association list of parameters plus
  the `id` field.  Python dict keys are unique, so a parameter named
  `"id"` cannot coexist with the id entry; the well-formedness
  predicate `candWF` records that typing fact.  Dict equality is
  key-order-insensitive; we keep association lists in the canonical
  order in which the program writes them, so structural equality
  models dict equality.
* JSON numeric values are modelled as `Int` (the protocol examples use
  numbers; the claims under study never depend on float semantics).
* `json.dumps(..., indent=None)` uses `", "` / `": "` separators and
  never emits a raw newline; `json.loads` is its inverse.  Both are
  modelled concretely by `encodeObs` / `decodeObs` below on the
  Observation/Candidate shapes the program exchanges.
-/

set_option maxRecDepth 8000

namespace Dopt

/-- A candidate: the parameter assignment (without the `"id"` key) plus
the integer `id` the coordinator assigns (`candidate["id"]`). -/
structure Candidate where
  params : List (String × Int)
  id : Int
  deriving DecidableEq

/-- An observation as received on the wire and stored in
`self.observations`: `{"candidate": ..., "result": ..., "contention_failure": ...}`. -/
structure Observation where
  candidate : Candidate
  result : Int
  contention_failure : Bool
  deriving DecidableEq

/-- The mutable state of one `Optimizer` object plus the observation
file: `observations` is `self.observations`, `pending_candidates` is
`self.pending_candidates`, and `ledger` is the decoded content of the
file `self.filename` (one observation per line, in file order). -/
structure State where
  observations : List Observation
  pending_candidates : List Candidate
  ledger : List Observation
  deriving DecidableEq

/-- `Optimizer.MAX_OBSERVATIONS`. -/
def MAX_OBSERVATIONS : Nat := 500

/-- Python typing fact: a candidate dict has a single `"id"` key, so no
parameter entry may be named `"id"`. -/
def candWF (c : Candidate) : Prop := ∀ p ∈ c.params, p.1 ≠ "id"

instance (c : Candidate) : Decidable (candWF c) := by
  unfold candWF; infer_instance

/-- `current_ids` of `Optimizer.generate_id`:
`[o["candidate"]["id"] for o in self.observations] +
 [candidate["id"] for candidate in self.pending_candidates]`. -/
def currentIds (st : State) : List Int :=
  st.observations.map (fun o => o.candidate.id) ++
    st.pending_candidates.map (fun c => c.id)

/-- The `while i <= len(current_ids) + 1` loop of `generate_id`:
`fuel` counts the remaining admissible iterations, so that running out
of fuel returns the current `i` exactly as the `while` condition
turning false does. -/
def generate_id_loop (ids : List Int) : Nat → Int → Int
  | 0, i => i
  | fuel + 1, i => if i ∈ ids then generate_id_loop ids fuel (i + 1) else i

/-- `Optimizer.generate_id`: starts at `i = 1`, increments while `i` is
among the ids of stored observations and pending candidates, bounded by
`len(current_ids) + 1`. -/
def generate_id (st : State) : Int :=
  generate_id_loop (currentIds st) (currentIds st).length.succ 1

/-- `Optimizer.remove_pending_candidate` (the Python function receives
an observation-shaped dict and extracts its `"candidate"` entry; both
call sites pass `{"candidate": c}` for the candidate `c` given here).
Returns the updated state together with `true` on success; `false`
models the `"Candidate not found in pending candidates!"` exception,
raised before any mutation. -/
def remove_pending_candidate (c : Candidate) (st : State) : State × Bool :=
  if c ∈ st.pending_candidates then
    ({ st with pending_candidates := st.pending_candidates.filter (fun x => x ≠ c) }, true)
  else (st, false)

/-- The observation branch of `Optimizer.run` (lines 136-140): if
`observation["contention_failure"] == False` the observation is
appended to `self.observations` and written to the file, and in either
case `remove_pending_candidate` runs afterwards.  The `Bool` is `false`
when that removal raises; the returned state keeps the mutations made
before the raise. -/
def applyObs (o : Observation) (st : State) : State × Bool :=
  let st1 :=
    if o.contention_failure = false then
      { st with observations := st.observations ++ [o], ledger := st.ledger ++ [o] }
    else st
  remove_pending_candidate o.candidate st1

/-- `Optimizer.is_running`: `False` once `len(self.observations)`
exceeds `MAX_OBSERVATIONS`. -/
def is_running (st : State) : Bool :=
  if st.observations.length > MAX_OBSERVATIONS then false else true

/-! ### The JSON codec on the wire/ledger shapes

`json.dumps(x, indent=None)` / `json.loads`, restricted to the shapes
the program reads and writes (candidates and observations with the
canonical key order the program produces).  `dumps` escapes `"`, the
backslash and control characters inside strings and never emits a raw
newline; we model the escapes the program can meet. -/

/-- JSON string escaping of one character (the escapes `json.dumps`
emits for the quote, the backslash and the common control characters;
other characters are kept verbatim). -/
def escChar (c : Char) : List Char :=
  if c = '"' ∨ c = '\\' then ['\\', c]
  else if c = '\n' then ['\\', 'n']
  else if c = '\t' then ['\\', 't']
  else if c = '\r' then ['\\', 'r']
  else [c]

/-- JSON string escaping. -/
def escape : List Char → List Char
  | [] => []
  | c :: t => escChar c ++ escape t

/-- Inverse of the escape table. -/
def unescChar (c : Char) : Char :=
  if c = 'n' then '\n' else if c = 't' then '\t' else if c = 'r' then '\r' else c

/-- Parse a JSON string body up to (and consuming) the closing quote. -/
def parseStr : List Char → Option (List Char × List Char)
  | [] => none
  | c :: t =>
    if c = '"' then some ([], t)
    else if c = '\\' then
      match t with
      | [] => none
      | e :: t2 => (parseStr t2).map (fun p => (unescChar e :: p.1, p.2))
    else (parseStr t).map (fun p => (c :: p.1, p.2))

/-- The character of a decimal digit. -/
def digitChar (n : Nat) : Char := Char.ofNat (48 + n)

/-- Decimal rendering of a natural number; `fuel`-driven so that the
definition is structural (any `fuel > n` gives the digits of `n`). -/
def printNatAux : Nat → Nat → List Char
  | 0, _ => []
  | fuel + 1, n =>
    if n < 10 then [digitChar n]
    else printNatAux fuel (n / 10) ++ [digitChar (n % 10)]

/-- Decimal rendering of a natural number. -/
def printNat (n : Nat) : List Char := printNatAux (n + 1) n

/-- Numeric value of a digit character. -/
def digitVal (c : Char) : Nat := c.toNat - 48

/-- Consume a maximal run of digits, folding them into `acc`. -/
def parseNatAux : List Char → Nat → Nat × List Char
  | [], acc => (acc, [])
  | c :: t, acc =>
    if c.isDigit then parseNatAux t (acc * 10 + digitVal c) else (acc, c :: t)

/-- Parse a natural number (at least one digit). -/
def parseNat (s : List Char) : Option (Nat × List Char) :=
  match s with
  | [] => none
  | c :: _ => if c.isDigit then some (parseNatAux s 0) else none

/-- JSON integer rendering. -/
def encodeInt (i : Int) : List Char :=
  if i < 0 then '-' :: printNat i.natAbs else printNat i.natAbs

/-- Parse a JSON integer. -/
def parseInt (s : List Char) : Option (Int × List Char) :=
  match s with
  | [] => none
  | c :: t =>
    if c = '-' then (parseNat t).map (fun p => (-(p.1 : Int), p.2))
    else (parseNat (c :: t)).map (fun p => ((p.1 : Int), p.2))

/-- Consume an expected literal chunk. -/
def expectL : List Char → List Char → Option (List Char)
  | [], s => some s
  | _ :: _, [] => none
  | p :: pt, c :: t => if c = p then expectL pt t else none

/-- One `"key": value` pair in `dumps` form (separator `": "`). -/
def encodePair (k : String) (v : Int) : List Char :=
  '"' :: escape k.data ++ '"' :: ':' :: ' ' :: encodeInt v

/-- The leading parameter pairs of a candidate dict, each followed by
the `dumps` item separator `", "`. -/
def encodeParams : List (String × Int) → List Char
  | [] => []
  | (k, v) :: t => encodePair k v ++ ',' :: ' ' :: encodeParams t

/-- `json.dumps` of a candidate dict: the parameter entries in
insertion order, the `"id"` entry last (the program inserts `id` last:
`candidate["id"] = self.generate_id()`). -/
def encodeCand (c : Candidate) : List Char :=
  '{' :: (encodeParams c.params ++ encodePair "id" c.id ++ ['}'])

/-- Parse the pair list of a candidate dict body: parameter pairs until
the `"id"` pair, which is followed by the closing brace. -/
def parsePairs : Nat → List Char → Option (List (String × Int) × Int × List Char)
  | 0, _ => none
  | fuel + 1, s =>
    match expectL ['"'] s with
    | none => none
    | some s1 =>
      match parseStr s1 with
      | none => none
      | some (k, s2) =>
        match expectL [':', ' '] s2 with
        | none => none
        | some s3 =>
          match parseInt s3 with
          | none => none
          | some (v, s4) =>
            if k = "id".data then
              match expectL ['}'] s4 with
              | none => none
              | some s5 => some ([], v, s5)
            else
              match expectL [',', ' '] s4 with
              | none => none
              | some s5 =>
                match parsePairs fuel s5 with
                | none => none
                | some (ps, i, s6) => some ((String.mk k, v) :: ps, i, s6)

/-- Parse a candidate dict, returning the unconsumed suffix. -/
def parseCand (s : List Char) : Option (Candidate × List Char) :=
  match expectL ['{'] s with
  | none => none
  | some s1 =>
    match parsePairs (s.length + 1) s1 with
    | none => none
    | some (ps, i, s2) => some (⟨ps, i⟩, s2)

/-- `json.loads` of a full candidate document (no trailing garbage). -/
def decodeCandidate (s : List Char) : Option Candidate :=
  match parseCand s with
  | some (c, []) => some c
  | _ => none

/-- `json.dumps` of a Bool. -/
def encodeBool (b : Bool) : List Char :=
  if b then "true".data else "false".data

/-- Parse a JSON Bool. -/
def parseBool (s : List Char) : Option (Bool × List Char) :=
  match expectL "true".data s with
  | some r => some (true, r)
  | none =>
    match expectL "false".data s with
    | some r => some (false, r)
    | none => none

/-- The literal `{"candidate": ` (the char-list form avoids brace
characters inside string literals). -/
def obsStartL : List Char := '{' :: '"' :: ("candidate".data ++ '"' :: ':' :: ' ' :: [])

/-- The literal `, "result": `. -/
def resultSepL : List Char := ',' :: ' ' :: '"' :: ("result".data ++ '"' :: ':' :: ' ' :: [])

/-- The literal `, "contention_failure": `. -/
def contSepL : List Char :=
  ',' :: ' ' :: '"' :: ("contention_failure".data ++ '"' :: ':' :: ' ' :: [])

/-- `json.dumps(observation, indent=None)` in the canonical key order
of the protocol (`candidate`, `result`, `contention_failure`). -/
def encodeObs (o : Observation) : List Char :=
  obsStartL ++ encodeCand o.candidate ++ resultSepL ++ encodeInt o.result ++
    contSepL ++ encodeBool o.contention_failure ++ ['}']

/-- `json.loads` of a full observation document (no trailing garbage). -/
def decodeObs (s : List Char) : Option Observation :=
  match expectL obsStartL s with
  | none => none
  | some s1 =>
    match parseCand s1 with
    | none => none
    | some (c, s2) =>
      match expectL resultSepL s2 with
      | none => none
      | some s3 =>
        match parseInt s3 with
        | none => none
        | some (r, s4) =>
          match expectL contSepL s4 with
          | none => none
          | some s5 =>
            match parseBool s5 with
            | none => none
            | some (b, s6) =>
              match expectL ['}'] s6 with
              | some [] => some ⟨c, r, b⟩
              | _ => none

/-! ### Lines, classification and the per-line update -/

/-- The whitespace characters `str.strip()` removes. -/
def pySpace (c : Char) : Bool :=
  c = ' ' ∨ c = '\t' ∨ c = '\n' ∨ c = '\r' ∨ c = '\x0b' ∨ c = '\x0c'

/-- Python `str.strip()`. -/
def pyStrip (s : List Char) : List Char :=
  ((s.dropWhile pySpace).reverse.dropWhile pySpace).reverse

/-- Python substring containment (`pat in s`). -/
def containsSub (pat : List Char) : List Char → Bool
  | [] => decide (pat = [])
  | c :: t => pat.isPrefixOf (c :: t) || containsSub pat t

/-- `s` starts with `pat`. -/
def beginsWith (pat s : List Char) : Bool := s.take pat.length = pat

/-- `Optimizer.HEADER_REMOVE_CANDIDATE`. -/
def markerL : List Char := "Remove: ".data

/-- The ack line `{}`. -/
def ackL : List Char := ['{', '}']

/-- The classification a (stripped) response line receives in
`Optimizer.run`: the literal `{}`, a line containing
`HEADER_REMOVE_CANDIDATE`, or anything else (an observation record). -/
inductive LineClass where
  | ack
  | removeCmd
  | obsRecord
  deriving DecidableEq

/-- Classify a stripped response line exactly as the `if/elif/else`
chain of `Optimizer.run` does (note: the remove test is `in`,
i.e. substring containment). -/
def classify (response : List Char) : LineClass :=
  if response = ackL then .ack
  else if containsSub markerL response then .removeCmd
  else .obsRecord

/-- Errors that abort the loop: a `json.loads`/shape failure
(`MalformedMessage`) or the `remove_pending_candidate` exception
(`CandidateNotPending`). -/
inductive Err where
  | malformed
  | candidateNotPending
  deriving DecidableEq

/-- Lines 142-148 of `Optimizer.run`: ask `generate_candidate` for new
parameters, allocate the id, append to `pending_candidates`, and send
one reply carrying the candidate. -/
def finishLine (gen : State → List (String × Int)) (st : State) :
    State × List Candidate × Option Err :=
  let cand : Candidate := ⟨gen st, generate_id st⟩
  ({ st with pending_candidates := st.pending_candidates ++ [cand] }, [cand], none)

/-- Processing of one response line (the body of the `for` loop of
`Optimizer.run`): strip, classify, apply the state update; the `Remove`
branch ends in `continue`, the other two branches fall through to the
candidate generation and reply of `finishLine`.  The returned list
holds the reply candidates sent for this line. -/
def processLine (gen : State → List (String × Int)) (l : List Char) (st : State) :
    State × List Candidate × Option Err :=
  let response := pyStrip l
  match classify response with
  | .ack => finishLine gen st
  | .removeCmd =>
    match decodeCandidate (pyStrip (response.drop markerL.length)) with
    | none => (st, [], some .malformed)
    | some c =>
      match remove_pending_candidate c st with
      | (st1, true) => (st1, [], none)
      | (st1, false) => (st1, [], some .candidateNotPending)
  | .obsRecord =>
    match decodeObs response with
    | none => (st, [], some .malformed)
    | some o =>
      match applyObs o st with
      | (st1, true) => finishLine gen st1
      | (st1, false) => (st1, [], some .candidateNotPending)

/-- Process a list of lines in order, stopping at the first raised
error (which aborts the loop, keeping the state mutated so far). -/
def processLines (gen : State → List (String × Int)) :
    List (List Char) → State → State × List Candidate × Option Err
  | [], st => (st, [], none)
  | l :: ls, st =>
    match processLine gen l st with
    | (st1, reps, none) =>
      let p := processLines gen ls st1
      (p.1, reps ++ p.2.1, p.2.2)
    | (st1, reps, some e) => (st1, reps, some e)

/-- Python `s.split("\n")`: maximal split at every newline. -/
def splitNl : List Char → List (List Char)
  | [] => [[]]
  | c :: t =>
    match splitNl t with
    | [] => [[]]
    | h :: r => if c = '\n' then [] :: h :: r else (c :: h) :: r

/-- One received batch (line 124 of `Optimizer.run`): the processed
lines are `responses.split("\n")[:-1]`, i.e. everything after the last
newline is dropped. -/
def processBatch (gen : State → List (String × Int)) (b : List Char) (st : State) :
    State × List Candidate × Option Err :=
  processLines gen (splitNl b).dropLast st

/-- How `Optimizer.run` terminates: the stopping predicate turning
false, end-of-stream (`EOFError`), or a raised protocol error. -/
inductive StopReason where
  | threshold
  | eof
  | protoErr (e : Err)
  deriving DecidableEq

/-- `Optimizer.run`: `while self.is_running()` receive one batch and
process it; an exhausted input list models the remote side closing the
channel (`EOFError` → return).  Returns the final state, all replies
sent, and why the loop ended. -/
def run (gen : State → List (String × Int)) :
    List (List Char) → State → State × List Candidate × StopReason
  | [], st => if is_running st then (st, [], .eof) else (st, [], .threshold)
  | b :: rest, st =>
    if is_running st then
      match processBatch gen b st with
      | (st1, reps, none) =>
        let p := run gen rest st1
        (p.1, reps ++ p.2.1, p.2.2)
      | (st1, reps, some e) => (st1, reps, .protoErr e)
    else (st, [], .threshold)

/-! ### The ledger file -/

/-- Concatenate lines, terminating each with a newline (the framing of
both the ledger file and outgoing batches). -/
def joinNl : List (List Char) → List Char
  | [] => []
  | l :: t => l ++ '\n' :: joinNl t

/-- The text of the observation file after the given observations have
been appended (`_save_observation` writes
`json.dumps(observation, indent=None) + "\n"` for each). -/
def fileOf (led : List Observation) : List Char :=
  joinNl (led.map encodeObs)

/-- Python `f.readlines()` with the trailing newlines stripped (the
final segment of the split is kept only when nonempty, i.e. when the
file does not end in a newline). -/
def linesOf (s : List Char) : List (List Char) :=
  let parts := splitNl s
  if parts.getLast? = some [] then parts.dropLast else parts

/-- Decode every line, failing on the first bad line (`json.loads`
raising is fatal in `_load_observations`). -/
def decodeAll : List (List Char) → Option (List Observation)
  | [] => some []
  | l :: ls =>
    match decodeObs l with
    | none => none
    | some o =>
      match decodeAll ls with
      | none => none
      | some os => some (o :: os)

/-- `Optimizer._load_observations` on an existing file: replay every
line as one JSON-decoded observation, in file order. -/
def loadObservations (file : List Char) : Option (List Observation) :=
  decodeAll (linesOf file)

/-! ### Traces of the loop, batch by batch (for the stopping claim) -/

/-- The state after one received batch. -/
def stepB (gen : State → List (String × Int)) (b : List Char) (st : State) : State :=
  (processBatch gen b st).1

/-- The state after the given batches have been processed in order
(ignoring raised errors; used below only under a no-error premise). -/
def stAfter (gen : State → List (String × Int)) : List (List Char) → State → State
  | [], st => st
  | b :: rest, st => stAfter gen rest (stepB gen b st)

/-- The first `k` received batches process without a raised error. -/
def noErrUpTo (gen : State → List (String × Int)) :
    List (List Char) → State → Nat → Prop
  | _, _, 0 => True
  | [], _, _ + 1 => True
  | b :: rest, st, k + 1 =>
    (processBatch gen b st).2.2 = none ∧ noErrUpTo gen rest (stepB gen b st) k

/-- The stopping predicate of `is_running` firing. -/
def overLimit (st : State) : Prop := st.observations.length > MAX_OBSERVATIONS

instance (st : State) : Decidable (overLimit st) := by
  unfold overLimit; infer_instance

/-- No character of `s` is a newline. -/
def noNl (s : List Char) : Prop := ∀ c ∈ s, c ≠ '\n'

instance (s : List Char) : Decidable (noNl s) := by
  unfold noNl; infer_instance

/-! ### Reachable optimizer states

The operation sequences of the spec's invariant: construction on an
empty file, restarts (a fresh `Optimizer` on the file written so far;
`pending_candidates` starts empty, `_load_observations` replays the
file), candidate generation (lines 143-145 of `run`), resolving an
observation (lines 136-140), and removing a pending candidate (the
`Remove` branch).  Failing operations raise and terminate the loop, so
they produce no successor state. -/
inductive Reach : State → Prop
  | init : Reach ⟨[], [], []⟩
  | restart {st : State} : Reach st → Reach ⟨st.ledger, [], st.ledger⟩
  | generate {st : State} (params : List (String × Int)) : Reach st →
      Reach { st with pending_candidates :=
        st.pending_candidates ++ [⟨params, generate_id st⟩] }
  | resolve {st st' : State} (o : Observation) : Reach st →
      applyObs o st = (st', true) → Reach st'
  | removeOp {st st' : State} (c : Candidate) : Reach st →
      remove_pending_candidate c st = (st', true) → Reach st'

/-! ### Concrete sample data (used to exercise the theorems) -/

/-- A pluggable `generate_candidate` returning `{"x": 1}`. -/
def sampleGen : State → List (String × Int) := fun _ => [("x", 1)]

/-- Candidate `{"x": 1, "id": 1}`. -/
def c11 : Candidate := ⟨[("x", 1)], 1⟩

/-- Candidate `{"x": 2, "id": 1}`: same id as `c11`, different
parameters. -/
def c21 : Candidate := ⟨[("x", 2)], 1⟩

/-- A successful observation of `c11`. -/
def o11 : Observation := ⟨c11, 5, false⟩

/-- A contention-failed observation of `c11`. -/
def o11c : Observation := ⟨c11, 5, true⟩

/-- Fresh optimizer state: empty store, empty pending set, empty file. -/
def stEmpty : State := ⟨[], [], []⟩

/-- State in which exactly `c11` is pending. -/
def stP11 : State := ⟨[], [c11], []⟩

/-- State whose occupied candidate ids are `{1, 2, 4}`. -/
def st124 : State :=
  ⟨[⟨⟨[("x", 1)], 1⟩, 5, false⟩, ⟨⟨[("x", 2)], 2⟩, 6, false⟩], [⟨[("x", 3)], 4⟩], []⟩

/-! ## Proofs -/

/-! ### `generate_id` returns the smallest free positive id -/

/-- Among `1 .. length + 1` some integer is missing from the list
(pigeonhole; this is why the `while` bound of `generate_id` is enough). -/
theorem exists_missing_le (ids : List Int) :
    ∃ j : Int, 1 ≤ j ∧ j ≤ ids.length + 1 ∧ j ∉ ids := by
  by_contra hcon
  push_neg at hcon
  have hsub : Finset.Icc (1 : ℤ) (ids.length + 1) ⊆ ids.toFinset := by
    intro j hj
    rw [Finset.mem_Icc] at hj
    rw [List.mem_toFinset]
    exact hcon j hj.1 hj.2
  have hcard := Finset.card_le_card hsub
  rw [Int.card_Icc] at hcard
  have hle := List.toFinset_card_le (l := ids)
  have : ((ids.length : ℤ) + 1 + 1 - 1).toNat = ids.length + 1 := by omega
  omega

/-- Invariant of the `while` loop of `generate_id`: if every positive
integer below `i` is occupied and some id in the remaining fuel window
is free, the loop returns the smallest free positive integer. -/
theorem generate_id_loop_spec (ids : List Int) :
    ∀ (fuel : Nat) (i : Int), 1 ≤ i →
      (∀ k : Int, 1 ≤ k → k < i → k ∈ ids) →
      (∃ j : Int, i ≤ j ∧ j ≤ i + fuel - 1 ∧ j ∉ ids) →
      1 ≤ generate_id_loop ids fuel i ∧ generate_id_loop ids fuel i ∉ ids ∧
        ∀ k : Int, 1 ≤ k → k < generate_id_loop ids fuel i → k ∈ ids := by
  intro fuel
  induction fuel with
  | zero =>
    intro i _ _ hex
    obtain ⟨j, hj1, hj2, _⟩ := hex
    omega
  | succ fuel ih =>
    intro i hi hbelow hex
    rw [generate_id_loop]
    by_cases hmem : i ∈ ids
    · rw [if_pos hmem]
      refine ih (i + 1) (by omega) ?_ ?_
      · intro k hk1 hk2
        rcases lt_or_eq_of_le (Int.lt_add_one_iff.mp hk2) with h | h
        · exact hbelow k hk1 h
        · rw [h]; exact hmem
      · obtain ⟨j, hj1, hj2, hj3⟩ := hex
        refine ⟨j, ?_, by omega, hj3⟩
        rcases lt_or_eq_of_le hj1 with h | h
        · omega
        · exact absurd hmem (h ▸ hj3)
    · rw [if_neg hmem]
      exact ⟨hi, hmem, hbelow⟩

/-- `generate_id` returns a positive id that is occupied by no stored
observation and no pending candidate, and every smaller positive
integer is occupied: the smallest free positive id. -/
theorem generate_id_spec (st : State) :
    1 ≤ generate_id st ∧ generate_id st ∉ currentIds st ∧
      ∀ k : Int, 1 ≤ k → k < generate_id st → k ∈ currentIds st := by
  have hex := exists_missing_le (currentIds st)
  refine generate_id_loop_spec (currentIds st) (currentIds st).length.succ 1
    le_rfl (by intro k hk1 hk2; omega) ?_
  obtain ⟨j, hj1, hj2, hj3⟩ := hex
  exact ⟨j, hj1, by push_cast; omega, hj3⟩

/-! ### The id-uniqueness invariant of reachable states -/

/-- Removing a candidate that occurs in a list with pairwise-distinct
ids removes its id entirely: nothing left in the filtered list carries
it. -/
theorem id_not_in_filter {l : List Candidate} {c : Candidate}
    (hn : (l.map (fun x => x.id)).Nodup) (hc : c ∈ l) :
    c.id ∉ (l.filter (fun x => x ≠ c)).map (fun x => x.id) := by
  intro hmem
  rw [List.mem_map] at hmem
  obtain ⟨c', hc', hid⟩ := hmem
  rw [List.mem_filter] at hc'
  have hne : c' ≠ c := by simpa using hc'.2
  exact hne (List.inj_on_of_nodup_map hn hc'.1 hc hid)

/-- The filtered pending ids form a sublist of the pending ids. -/
theorem filter_ids_sublist (l : List Candidate) (c : Candidate) :
    List.Sublist ((l.filter (fun x => x ≠ c)).map (fun x => x.id))
      (l.map (fun x => x.id)) :=
  (List.filter_sublist l).map _

/-- Combined invariant of every reachable optimizer state: the file
content always equals the in-memory observation list, and the candidate
ids across the observation store and the pending set are pairwise
distinct. -/
theorem reach_invariant {st : State} (h : Reach st) :
    st.ledger = st.observations ∧ (currentIds st).Nodup := by
  induction h with
  | init => exact ⟨rfl, by simp [currentIds]⟩
  | restart _ ih =>
    obtain ⟨hled, hnd⟩ := ih
    refine ⟨rfl, ?_⟩
    simp only [currentIds] at hnd ⊢
    rw [hled]
    simp only [List.map_nil, List.append_nil]
    exact (List.nodup_append.mp hnd).1
  | generate params _ ih =>
    obtain ⟨hled, hnd⟩ := ih
    refine ⟨hled, ?_⟩
    simp only [currentIds, List.map_append] at hnd ⊢
    rw [← List.append_assoc]
    refine List.nodup_append.mpr ⟨hnd, List.nodup_singleton _, ?_⟩
    intro a ha hb
    rw [List.map_singleton, List.mem_singleton] at hb
    subst hb
    exact (generate_id_spec _).2.1 ha
  | resolve o _ happ ih =>
    rename_i st st' _
    obtain ⟨hled, hnd⟩ := ih
    rw [applyObs] at happ
    have hobs : (st.observations.map (fun o => o.candidate.id)).Nodup :=
      (List.nodup_append.mp hnd).1
    have hpend : (st.pending_candidates.map (fun c => c.id)).Nodup :=
      (List.nodup_append.mp hnd).2.1
    have hdisj := (List.nodup_append.mp hnd).2.2
    by_cases hcf : o.contention_failure = false
    · rw [if_pos hcf, remove_pending_candidate] at happ
      by_cases hmem : o.candidate ∈ st.pending_candidates
      · rw [if_pos hmem, Prod.mk.injEq] at happ
        obtain ⟨h1, -⟩ := happ
        subst h1
        refine ⟨by rw [hled], ?_⟩
        simp only [currentIds, List.map_append, List.map_cons, List.map_nil]
        have hcidp : o.candidate.id ∈ st.pending_candidates.map (fun c => c.id) :=
          List.mem_map_of_mem _ hmem
        have hcido : o.candidate.id ∉ st.observations.map (fun o => o.candidate.id) :=
          fun hin => hdisj hin hcidp
        have hfsub := filter_ids_sublist st.pending_candidates o.candidate
        refine List.nodup_append.mpr ⟨List.nodup_append.mpr
          ⟨hobs, List.nodup_singleton _, ?_⟩, hpend.sublist hfsub, ?_⟩
        · intro a ha hb
          rw [List.mem_singleton] at hb
          subst hb
          exact hcido ha
        · intro a ha hb
          rw [List.mem_append] at ha
          rcases ha with ha | ha
          · exact hdisj ha (hfsub.subset hb)
          · rw [List.mem_singleton] at ha
            subst ha
            exact id_not_in_filter hpend hmem hb
      · rw [if_neg hmem, Prod.mk.injEq] at happ
        exact absurd happ.2 (by simp)
    · rw [if_neg hcf, remove_pending_candidate] at happ
      by_cases hmem : o.candidate ∈ st.pending_candidates
      · rw [if_pos hmem, Prod.mk.injEq] at happ
        obtain ⟨h1, -⟩ := happ
        subst h1
        refine ⟨hled, ?_⟩
        simp only [currentIds]
        exact hnd.sublist ((List.Sublist.refl _).append
          (filter_ids_sublist st.pending_candidates o.candidate))
      · rw [if_neg hmem, Prod.mk.injEq] at happ
        exact absurd happ.2 (by simp)
  | removeOp c _ hrem ih =>
    rename_i st st' _
    obtain ⟨hled, hnd⟩ := ih
    rw [remove_pending_candidate] at hrem
    by_cases hmem : c ∈ st.pending_candidates
    · rw [if_pos hmem, Prod.mk.injEq] at hrem
      obtain ⟨h1, -⟩ := hrem
      subst h1
      refine ⟨hled, ?_⟩
      simp only [currentIds]
      exact hnd.sublist ((List.Sublist.refl _).append (filter_ids_sublist _ c))
    · rw [if_neg hmem, Prod.mk.injEq] at hrem
      exact absurd hrem.2 (by simp)

/-! ### The codec round-trips: `loads (dumps x) = x` -/

theorem expectL_append (pat r : List Char) : expectL pat (pat ++ r) = some r := by
  induction pat with
  | nil => rfl
  | cons p pt ih => simp [expectL, ih]

theorem parseStr_cons_quote (t : List Char) : parseStr ('"' :: t) = some ([], t) := by
  rw [parseStr.eq_def]
  simp

theorem parseStr_cons_esc (e : Char) (t : List Char) :
    parseStr ('\\' :: e :: t) = (parseStr t).map (fun p => (unescChar e :: p.1, p.2)) := by
  rw [parseStr.eq_def]
  simp

theorem parseStr_cons_other {c : Char} (hq : c ≠ '"') (hb : c ≠ '\\') (t : List Char) :
    parseStr (c :: t) = (parseStr t).map (fun p => (c :: p.1, p.2)) := by
  rw [parseStr.eq_def]
  simp [hq, hb]

theorem parseStr_escape (k r : List Char) :
    parseStr (escape k ++ '"' :: r) = some (k, r) := by
  induction k with
  | nil => rw [escape, List.nil_append, parseStr_cons_quote]
  | cons c t ih =>
    rw [escape]
    by_cases h1 : c = '"' ∨ c = '\\'
    · rcases h1 with h | h <;> subst h <;>
        simp [escChar, parseStr_cons_esc, unescChar, ih]
    · push_neg at h1
      obtain ⟨hq, hb⟩ := h1
      by_cases h2 : c = '\n'
      · subst h2; simp [escChar, parseStr_cons_esc, unescChar, ih]
      · by_cases h3 : c = '\t'
        · subst h3; simp [escChar, parseStr_cons_esc, unescChar, ih]
        · by_cases h4 : c = '\r'
          · subst h4; simp [escChar, parseStr_cons_esc, unescChar, ih]
          · rw [escChar, if_neg (by tauto), if_neg h2, if_neg h3, if_neg h4,
              List.singleton_append, List.cons_append, parseStr_cons_other hq hb, ih]
            rfl

theorem digitChar_isDigit {n : Nat} (h : n < 10) : (digitChar n).isDigit = true := by
  interval_cases n <;> decide

theorem digitVal_digitChar {n : Nat} (h : n < 10) : digitVal (digitChar n) = n := by
  interval_cases n <;> decide

theorem printNatAux_ne_nil {fuel n : Nat} (h : n < fuel) : printNatAux fuel n ≠ [] := by
  cases fuel with
  | zero => omega
  | succ f =>
    rw [printNatAux]
    by_cases h10 : n < 10
    · rw [if_pos h10]; simp
    · rw [if_neg h10]; simp

theorem printNatAux_digits {fuel : Nat} :
    ∀ {n : Nat}, n < fuel → ∀ c ∈ printNatAux fuel n, c.isDigit = true := by
  induction fuel with
  | zero => intro n h; omega
  | succ f ih =>
    intro n h c hc
    rw [printNatAux] at hc
    by_cases h10 : n < 10
    · rw [if_pos h10] at hc
      rw [List.mem_singleton] at hc
      subst hc
      exact digitChar_isDigit h10
    · rw [if_neg h10] at hc
      rw [List.mem_append] at hc
      rcases hc with hc | hc
      · exact ih (by omega) c hc
      · rw [List.mem_singleton] at hc
        subst hc
        exact digitChar_isDigit (by omega)

theorem parseNatAux_printNatAux {fuel : Nat} :
    ∀ {n : Nat}, n < fuel → ∀ (acc : Nat) (r : List Char),
      parseNatAux (printNatAux fuel n ++ r) acc =
        parseNatAux r (acc * 10 ^ (printNatAux fuel n).length + n) := by
  induction fuel with
  | zero => intro n h; omega
  | succ f ih =>
    intro n h acc r
    rw [printNatAux]
    by_cases h10 : n < 10
    · rw [if_pos h10, List.singleton_append, parseNatAux,
        if_pos (digitChar_isDigit h10), digitVal_digitChar h10]
      norm_num
    · rw [if_neg h10, List.append_assoc, ih (by omega), List.singleton_append,
        parseNatAux, if_pos (digitChar_isDigit (by omega)),
        digitVal_digitChar (Nat.mod_lt _ (by omega))]
      congr 1
      rw [List.length_append, List.length_singleton, pow_succ]
      have hacc : acc * (10 ^ (printNatAux f (n / 10)).length * 10) =
          acc * 10 ^ (printNatAux f (n / 10)).length * 10 := by ring
      rw [hacc]
      omega

theorem parseNatAux_stop {r : List Char}
    (hr : ∀ c, r.head? = some c → c.isDigit = false) (v : Nat) :
    parseNatAux r v = (v, r) := by
  cases r with
  | nil => rfl
  | cons c t =>
    rw [parseNatAux, if_neg]
    simp [hr c rfl]

theorem parseNat_printNat (n : Nat) (r : List Char)
    (hr : ∀ c, r.head? = some c → c.isDigit = false) :
    parseNat (printNat n ++ r) = some (n, r) := by
  have hlt : n < n + 1 := Nat.lt_succ_self n
  have hne := printNatAux_ne_nil hlt
  obtain ⟨c, t, heq⟩ := List.exists_cons_of_ne_nil hne
  have hdig : c.isDigit = true := by
    refine printNatAux_digits hlt c ?_
    rw [heq]
    exact List.mem_cons_self _ _
  rw [printNat, heq, List.cons_append, parseNat, if_pos hdig, ← List.cons_append, ← heq,
    parseNatAux_printNatAux hlt, parseNatAux_stop hr]
  norm_num

theorem parseInt_encodeInt (i : Int) (r : List Char)
    (hr : ∀ c, r.head? = some c → c.isDigit = false) :
    parseInt (encodeInt i ++ r) = some (i, r) := by
  rw [encodeInt]
  by_cases hneg : i < 0
  · rw [if_pos hneg, List.cons_append, parseInt, if_pos rfl, parseNat_printNat _ _ hr,
      Option.map_some']
    have hN : -(i.natAbs : Int) = i := by omega
    simp only [hN]
  · rw [if_neg hneg]
    have hlt : i.natAbs < i.natAbs + 1 := Nat.lt_succ_self _
    have hne := printNatAux_ne_nil hlt
    obtain ⟨c, t, heq⟩ := List.exists_cons_of_ne_nil hne
    have hdig : c.isDigit = true := by
      refine printNatAux_digits hlt c ?_
      rw [heq]
      exact List.mem_cons_self _ _
    have hcne : ¬ c = '-' := by
      intro h
      subst h
      simp at hdig
    rw [printNat, heq, List.cons_append, parseInt, if_neg hcne, ← List.cons_append, ← heq,
      ← printNat, parseNat_printNat _ _ hr, Option.map_some']
    have hN : (i.natAbs : Int) = i := by omega
    simp only [hN]

theorem expectL_quote (x : List Char) : expectL ['"'] ('"' :: x) = some x := by
  simp [expectL]

theorem expectL_colon (x : List Char) : expectL [':', ' '] (':' :: ' ' :: x) = some x := by
  simp [expectL]

theorem expectL_comma (x : List Char) : expectL [',', ' '] (',' :: ' ' :: x) = some x := by
  simp [expectL]

theorem expectL_rbrace (x : List Char) : expectL ['}'] ('}' :: x) = some x := by
  simp [expectL]

theorem parseInt_rbrace (i : Int) (r : List Char) :
    parseInt (encodeInt i ++ '}' :: r) = some (i, '}' :: r) := by
  refine parseInt_encodeInt i _ ?_
  intro c h
  simp only [List.head?] at h
  cases h
  decide

theorem parseInt_comma (i : Int) (r : List Char) :
    parseInt (encodeInt i ++ ',' :: r) = some (i, ',' :: r) := by
  refine parseInt_encodeInt i _ ?_
  intro c h
  simp only [List.head?] at h
  cases h
  decide

theorem string_data_inj {a b : String} (h : a.data = b.data) : a = b :=
  congrArg String.mk h

theorem parsePairs_encode : ∀ (ps : List (String × Int)), (∀ p ∈ ps, p.1 ≠ "id") →
    ∀ (i : Int) (r : List Char) (fuel : Nat), ps.length < fuel →
      parsePairs fuel (encodeParams ps ++ (encodePair "id" i ++ '}' :: r)) =
        some (ps, i, r) := by
  intro ps
  induction ps with
  | nil =>
    intro _ i r fuel hf
    cases fuel with
    | zero => omega
    | succ f =>
      simp only [encodeParams, List.nil_append, encodePair, List.cons_append,
        List.append_assoc, List.singleton_append]
      simp only [parsePairs, expectL_quote, parseStr_escape, expectL_colon,
        parseInt_rbrace, expectL_rbrace]
      simp
  | cons p ps ih =>
    intro hwf i r fuel hf
    obtain ⟨k, v⟩ := p
    have hk : k ≠ "id" := hwf (k, v) (List.mem_cons_self _ _)
    have hkd : ¬ (k.data = "id".data) := fun h => hk (string_data_inj h)
    have hkd' : ¬ (k.data = ['i', 'd']) := fun h => hk (string_data_inj (h.trans rfl))
    cases fuel with
    | zero => omega
    | succ f =>
      have hrec := ih (fun q hq => hwf q (List.mem_cons_of_mem _ hq)) i r f (by
        simp only [List.length_cons] at hf
        omega)
      simp only [encodeParams]
      rw [show encodePair k v = '"' :: escape k.data ++ '"' :: ':' :: ' ' :: encodeInt v
        from rfl]
      simp only [List.cons_append, List.append_assoc]
      simp only [parsePairs, expectL_quote, parseStr_escape, expectL_colon,
        parseInt_comma, expectL_comma, hkd, hkd', if_false, hrec]

theorem encodeParams_length_ge (ps : List (String × Int)) :
    ps.length ≤ (encodeParams ps).length := by
  induction ps with
  | nil => simp [encodeParams]
  | cons p ps ih =>
    obtain ⟨k, v⟩ := p
    simp only [encodeParams, List.length_append, List.length_cons, List.length_cons]
    omega

theorem expectL_lbrace (x : List Char) : expectL ['{'] ('{' :: x) = some x := by
  simp [expectL]

theorem expectL_mismatch {p c : Char} (h : ¬ c = p) (pt t : List Char) :
    expectL (p :: pt) (c :: t) = none := by
  simp [expectL, h]

theorem parseCand_encode (c : Candidate) (hwf : candWF c) (r : List Char) :
    parseCand (encodeCand c ++ r) = some (c, r) := by
  obtain ⟨ps, i⟩ := c
  have hwf' : ∀ p ∈ ps, p.1 ≠ "id" := hwf
  have hshape : encodeCand ⟨ps, i⟩ ++ r =
      '{' :: (encodeParams ps ++ (encodePair "id" i ++ '}' :: r)) := by
    simp [encodeCand, List.append_assoc]
  rw [hshape]
  have hlen : ps.length <
      ('{' :: (encodeParams ps ++ (encodePair "id" i ++ '}' :: r))).length + 1 := by
    have hge := encodeParams_length_ge ps
    simp only [List.length_cons, List.length_append]
    omega
  simp only [parseCand, expectL_lbrace]
  rw [parsePairs_encode ps hwf' i r _ hlen]

theorem decodeCandidate_encodeCand (c : Candidate) (hwf : candWF c) :
    decodeCandidate (encodeCand c) = some c := by
  rw [decodeCandidate, show encodeCand c = encodeCand c ++ [] from by simp,
    parseCand_encode c hwf]

theorem expectL_true_lit (r : List Char) :
    expectL ['t', 'r', 'u', 'e'] ('t' :: 'r' :: 'u' :: 'e' :: r) = some r := by
  simp [expectL]

theorem expectL_false_lit (r : List Char) :
    expectL ['f', 'a', 'l', 's', 'e'] ('f' :: 'a' :: 'l' :: 's' :: 'e' :: r) = some r := by
  simp [expectL]

theorem expectL_true_on_false (r : List Char) :
    expectL ['t', 'r', 'u', 'e'] ('f' :: r) = none :=
  expectL_mismatch (by decide) _ _

theorem parseBool_encodeBool (b : Bool) (r : List Char) :
    parseBool (encodeBool b ++ r) = some (b, r) := by
  cases b with
  | false =>
    simp [encodeBool, parseBool, expectL_true_on_false, expectL_false_lit]
  | true =>
    simp [encodeBool, parseBool, expectL_true_lit]

theorem head_not_digit_contSep (x : List Char) :
    ∀ ch, (contSepL ++ x).head? = some ch → ch.isDigit = false := by
  intro ch h
  rw [contSepL] at h
  simp only [List.cons_append, List.head?_cons, Option.some.injEq] at h
  subst h
  decide

theorem parseInt_contSep (i : Int) (x : List Char) :
    parseInt (encodeInt i ++ (contSepL ++ x)) = some (i, contSepL ++ x) :=
  parseInt_encodeInt i _ (head_not_digit_contSep x)

theorem decodeObs_encodeObs (o : Observation) (hwf : candWF o.candidate) :
    decodeObs (encodeObs o) = some o := by
  obtain ⟨c, res, b⟩ := o
  have hshape : encodeObs ⟨c, res, b⟩ =
      obsStartL ++ (encodeCand c ++ (resultSepL ++ (encodeInt res ++
        (contSepL ++ (encodeBool b ++ ('}' :: [])))))) := by
    simp [encodeObs, List.append_assoc]
  rw [hshape]
  simp only [decodeObs, expectL_append, parseCand_encode c hwf, parseInt_contSep,
    parseBool_encodeBool, expectL_rbrace]

/-! ### Newline-freedom of encoded records, and line splitting -/

theorem noNl_append {a b : List Char} (ha : noNl a) (hb : noNl b) : noNl (a ++ b) := by
  intro c hc
  rw [List.mem_append] at hc
  rcases hc with h | h
  · exact ha c h
  · exact hb c h

theorem noNl_escChar (c : Char) : noNl (escChar c) := by
  intro x hx
  rw [escChar] at hx
  by_cases h1 : c = '"' ∨ c = '\\'
  · rw [if_pos h1] at hx
    simp only [List.mem_cons, List.not_mem_nil, or_false] at hx
    rcases hx with h | h
    · subst h; decide
    · subst h; rcases h1 with h1 | h1 <;> subst h1 <;> decide
  · rw [if_neg h1] at hx
    by_cases h2 : c = '\n'
    · rw [if_pos h2] at hx
      simp only [List.mem_cons, List.not_mem_nil, or_false] at hx
      rcases hx with h | h <;> subst h <;> decide
    · rw [if_neg h2] at hx
      by_cases h3 : c = '\t'
      · rw [if_pos h3] at hx
        simp only [List.mem_cons, List.not_mem_nil, or_false] at hx
        rcases hx with h | h <;> subst h <;> decide
      · rw [if_neg h3] at hx
        by_cases h4 : c = '\r'
        · rw [if_pos h4] at hx
          simp only [List.mem_cons, List.not_mem_nil, or_false] at hx
          rcases hx with h | h <;> subst h <;> decide
        · rw [if_neg h4] at hx
          simp only [List.mem_singleton] at hx
          subst hx
          exact h2

theorem noNl_escape (k : List Char) : noNl (escape k) := by
  induction k with
  | nil => intro c hc; simp [escape] at hc
  | cons c t ih => exact noNl_append (noNl_escChar c) ih

theorem noNl_printNat (n : Nat) : noNl (printNat n) := by
  intro c hc
  have hd := printNatAux_digits (Nat.lt_succ_self n) c hc
  intro hne
  subst hne
  simp at hd

theorem noNl_encodeInt (i : Int) : noNl (encodeInt i) := by
  rw [encodeInt]
  by_cases hneg : i < 0
  · rw [if_pos hneg]
    intro c hc
    rw [List.mem_cons] at hc
    rcases hc with h | h
    · subst h; decide
    · exact noNl_printNat _ c h
  · rw [if_neg hneg]
    exact noNl_printNat _

theorem noNl_encodePair (k : String) (v : Int) : noNl (encodePair k v) := by
  rw [encodePair]
  intro c hc
  rw [List.mem_append] at hc
  rcases hc with h | h
  · rw [List.mem_cons] at h
    rcases h with h | h
    · subst h; decide
    · exact noNl_escape _ c h
  · simp only [List.mem_cons] at h
    rcases h with h | h | h | h
    · subst h; decide
    · subst h; decide
    · subst h; decide
    · exact noNl_encodeInt _ c h

theorem noNl_encodeParams (ps : List (String × Int)) : noNl (encodeParams ps) := by
  induction ps with
  | nil => intro c hc; simp [encodeParams] at hc
  | cons p t ih =>
    obtain ⟨k, v⟩ := p
    rw [encodeParams]
    refine noNl_append (noNl_encodePair k v) ?_
    intro c hc
    simp only [List.mem_cons] at hc
    rcases hc with h | h | h
    · subst h; decide
    · subst h; decide
    · exact ih c h

theorem noNl_encodeCand (c : Candidate) : noNl (encodeCand c) := by
  rw [encodeCand]
  intro x hx
  rw [List.mem_cons] at hx
  rcases hx with h | h
  · subst h; decide
  · rw [List.mem_append] at h
    rcases h with h | h
    · rw [List.mem_append] at h
      rcases h with h | h
      · exact noNl_encodeParams _ x h
      · exact noNl_encodePair _ _ x h
    · simp only [List.mem_singleton] at h
      subst h; decide

theorem noNl_encodeBool (b : Bool) : noNl (encodeBool b) := by
  cases b <;> decide

theorem noNl_encodeObs (o : Observation) : noNl (encodeObs o) := by
  rw [encodeObs]
  intro c hc
  simp only [List.append_assoc, List.mem_append, List.mem_singleton] at hc
  rcases hc with h | h | h | h | h | h | h
  · exact (by decide : noNl obsStartL) c h
  · exact noNl_encodeCand _ c h
  · exact (by decide : noNl resultSepL) c h
  · exact noNl_encodeInt _ c h
  · exact (by decide : noNl contSepL) c h
  · exact noNl_encodeBool _ c h
  · subst h; decide

theorem splitNl_ne_nil (s : List Char) : splitNl s ≠ [] := by
  cases s with
  | nil => simp [splitNl]
  | cons c t =>
    simp only [splitNl]
    cases hs : splitNl t with
    | nil => simp
    | cons h0 r => by_cases hc : c = '\n' <;> simp [hc]

theorem splitNl_noNl {s : List Char} (h : noNl s) : splitNl s = [s] := by
  induction s with
  | nil => rfl
  | cons c t ih =>
    have hc : c ≠ '\n' := h c (List.mem_cons_self _ _)
    have ht : noNl t := fun x hx => h x (List.mem_cons_of_mem _ hx)
    simp [splitNl, ih ht, hc]

theorem splitNl_append_nl {a : List Char} (ha : noNl a) (t : List Char) :
    splitNl (a ++ '\n' :: t) = a :: splitNl t := by
  induction a with
  | nil =>
    rw [List.nil_append]
    simp only [splitNl]
    cases hs : splitNl t with
    | nil => exact absurd hs (splitNl_ne_nil t)
    | cons h0 r => simp
  | cons c a' ih =>
    have hc : c ≠ '\n' := ha c (List.mem_cons_self _ _)
    have ha' : noNl a' := fun x hx => ha x (List.mem_cons_of_mem _ hx)
    rw [List.cons_append]
    simp only [splitNl, ih ha']
    simp [hc]

theorem splitNl_joinNl {ls : List (List Char)} (h : ∀ l ∈ ls, noNl l) :
    splitNl (joinNl ls) = ls ++ [[]] := by
  induction ls with
  | nil => rfl
  | cons l t ih =>
    rw [joinNl, splitNl_append_nl (h l (List.mem_cons_self _ _)),
      ih (fun x hx => h x (List.mem_cons_of_mem _ hx))]
    rfl

/-! ### The ledger round-trips -/

theorem linesOf_fileOf (led : List Observation) :
    linesOf (fileOf led) = led.map encodeObs := by
  have hs : splitNl (fileOf led) = led.map encodeObs ++ [[]] := by
    rw [fileOf]
    refine splitNl_joinNl ?_
    intro l hl
    rw [List.mem_map] at hl
    obtain ⟨o, _, rfl⟩ := hl
    exact noNl_encodeObs o
  rw [linesOf]
  simp only [hs, List.getLast?_concat, if_pos rfl, List.dropLast_concat]
  simp

theorem decodeAll_map {led : List Observation} (h : ∀ o ∈ led, candWF o.candidate) :
    decodeAll (led.map encodeObs) = some led := by
  induction led with
  | nil => rfl
  | cons o t ih =>
    rw [List.map_cons]
    simp only [decodeAll, decodeObs_encodeObs o (h o (List.mem_cons_self _ _)),
      ih (fun x hx => h x (List.mem_cons_of_mem _ hx))]

theorem loadObservations_fileOf {led : List Observation}
    (h : ∀ o ∈ led, candWF o.candidate) :
    loadObservations (fileOf led) = some led := by
  rw [loadObservations, linesOf_fileOf, decodeAll_map h]

/-! ### Batch framing: only the segments before the last newline count -/

theorem dropLast_splitNl_append {r : List Char} (hr : noNl r) (s : List Char) :
    (splitNl (s ++ r)).dropLast = (splitNl s).dropLast := by
  induction s with
  | nil =>
    rw [List.nil_append, splitNl_noNl hr]
    rfl
  | cons c s' ih =>
    cases hs1 : splitNl (s' ++ r) with
    | nil => exact absurd hs1 (splitNl_ne_nil _)
    | cons h1 t1 =>
      cases hs2 : splitNl s' with
      | nil => exact absurd hs2 (splitNl_ne_nil _)
      | cons h2 t2 =>
        have ihe : (h1 :: t1).dropLast = (h2 :: t2).dropLast := by
          rw [← hs1, ← hs2]; exact ih
        rw [List.cons_append]
        simp only [splitNl, hs1, hs2]
        by_cases hc : c = '\n'
        · subst hc
          rw [if_pos rfl, if_pos rfl, List.dropLast_cons₂, List.dropLast_cons₂, ihe]
        · rw [if_neg hc, if_neg hc]
          cases t1 with
          | nil =>
            cases t2 with
            | nil => rfl
            | cons x2 xs2 =>
              rw [List.dropLast_cons₂] at ihe
              simp at ihe
          | cons x1 xs1 =>
            cases t2 with
            | nil =>
              rw [List.dropLast_cons₂] at ihe
              simp at ihe
            | cons x2 xs2 =>
              rw [List.dropLast_cons₂, List.dropLast_cons₂] at ihe
              rw [List.dropLast_cons₂, List.dropLast_cons₂]
              rw [List.cons.injEq] at ihe
              rw [ihe.1, ihe.2]

theorem processBatch_drop_tail (gen : State → List (String × Int)) (st : State)
    {r : List Char} (hr : noNl r) (s : List Char) :
    processBatch gen (s ++ r) st = processBatch gen s st := by
  rw [processBatch, processBatch, dropLast_splitNl_append hr]

theorem processBatch_joinNl (gen : State → List (String × Int)) (st : State)
    {ls : List (List Char)} (h : ∀ l ∈ ls, noNl l) :
    processBatch gen (joinNl ls) st = processLines gen ls st := by
  rw [processBatch, splitNl_joinNl h, List.dropLast_concat]

/-! ### When the loop stops -/

theorem is_running_true_iff (st : State) : is_running st = true ↔ ¬ overLimit st := by
  rw [is_running, overLimit]
  by_cases h : st.observations.length > MAX_OBSERVATIONS <;> simp [h]

theorem is_running_false_iff (st : State) : is_running st = false ↔ overLimit st := by
  rw [is_running, overLimit]
  by_cases h : st.observations.length > MAX_OBSERVATIONS <;> simp [h]

/-- If the first `k` batches process without error, none of the batch
boundaries before the `k`-th crosses the threshold, and the `k`-th
boundary does, then the loop returns at exactly that boundary, with the
stop caused by the stopping predicate. -/
theorem run_stops_at_threshold (gen : State → List (String × Int)) :
    ∀ (bs : List (List Char)) (st : State) (k : Nat), k ≤ bs.length →
      noErrUpTo gen bs st k →
      (∀ j, j < k → ¬ overLimit (stAfter gen (bs.take j) st)) →
      overLimit (stAfter gen (bs.take k) st) →
      (run gen bs st).1 = stAfter gen (bs.take k) st ∧
        (run gen bs st).2.2 = StopReason.threshold := by
  intro bs
  induction bs with
  | nil =>
    intro st k hk _ _ hover
    have hk0 : k = 0 := by simpa using hk
    subst hk0
    have hstop : is_running st = false := by
      rw [is_running_false_iff]
      simpa [stAfter] using hover
    rw [run, if_neg (by simp [hstop])]
    simp [stAfter]
  | cons b rest ih =>
    intro st k hk hne hbelow hover
    cases k with
    | zero =>
      have hstop : is_running st = false := by
        rw [is_running_false_iff]
        simpa [stAfter] using hover
      rw [run, if_neg (by simp [hstop])]
      simp [stAfter]
    | succ k' =>
      have hrunning : is_running st = true := by
        rw [is_running_true_iff]
        simpa [stAfter] using hbelow 0 (Nat.succ_pos _)
      obtain ⟨hb, hrest⟩ := hne
      rcases hpb : processBatch gen b st with ⟨st1, reps, err⟩
      have herr : err = none := by
        have := hb
        rw [hpb] at this
        exact this
      subst herr
      have hstep : stepB gen b st = st1 := by rw [stepB, hpb]
      have hrest' : noErrUpTo gen rest st1 k' := by rw [← hstep]; exact hrest
      have hbelow' : ∀ j, j < k' → ¬ overLimit (stAfter gen (rest.take j) st1) := by
        intro j hj
        have := hbelow (j + 1) (by omega)
        rw [List.take_succ_cons, stAfter, hstep] at this
        exact this
      have hover' : overLimit (stAfter gen (rest.take k') st1) := by
        rw [List.take_succ_cons, stAfter, hstep] at hover
        exact hover
      have ihres := ih st1 k' (by simpa using hk) hrest' hbelow' hover'
      rw [run, if_pos hrunning, hpb]
      rw [List.take_succ_cons, stAfter, hstep]
      exact ⟨ihres.1, ihres.2⟩

/-- If every batch processes without error and no batch boundary ever
crosses the threshold, the loop consumes all batches and returns on
end-of-stream. -/
theorem run_eof_spec (gen : State → List (String × Int)) :
    ∀ (bs : List (List Char)) (st : State),
      noErrUpTo gen bs st bs.length →
      (∀ j, j ≤ bs.length → ¬ overLimit (stAfter gen (bs.take j) st)) →
      (run gen bs st).1 = stAfter gen bs st ∧
        (run gen bs st).2.2 = StopReason.eof := by
  intro bs
  induction bs with
  | nil =>
    intro st _ hbelow
    have hrunning : is_running st = true := by
      rw [is_running_true_iff]
      simpa [stAfter] using hbelow 0 (by simp)
    rw [run, if_pos hrunning]
    exact ⟨rfl, rfl⟩
  | cons b rest ih =>
    intro st hne hbelow
    have hrunning : is_running st = true := by
      rw [is_running_true_iff]
      simpa [stAfter] using hbelow 0 (by simp)
    obtain ⟨hb, hrest⟩ := hne
    rcases hpb : processBatch gen b st with ⟨st1, reps, err⟩
    have herr : err = none := by
      have := hb
      rw [hpb] at this
      exact this
    subst herr
    have hstep : stepB gen b st = st1 := by rw [stepB, hpb]
    have hrest' : noErrUpTo gen rest st1 rest.length := by rw [← hstep]; exact hrest
    have hbelow' : ∀ j, j ≤ rest.length → ¬ overLimit (stAfter gen (rest.take j) st1) := by
      intro j hj
      have := hbelow (j + 1) (by simp; omega)
      rw [List.take_succ_cons, stAfter, hstep] at this
      exact this
    have ihres := ih st1 hrest' hbelow'
    rw [run, if_pos hrunning, hpb, stAfter, hstep]
    exact ⟨ihres.1, ihres.2⟩

/-! ### Per-line processing -/

theorem processLine_ack {gen : State → List (String × Int)} {l : List Char} {st : State}
    (hcl : classify (pyStrip l) = LineClass.ack) :
    processLine gen l st = finishLine gen st := by
  rw [processLine, hcl]

theorem processLine_removeCmd {gen : State → List (String × Int)} {l : List Char}
    {st : State} (hcl : classify (pyStrip l) = LineClass.removeCmd) :
    processLine gen l st =
      match decodeCandidate (pyStrip ((pyStrip l).drop markerL.length)) with
      | none => (st, [], some Err.malformed)
      | some c =>
        match remove_pending_candidate c st with
        | (st1, true) => (st1, [], none)
        | (st1, false) => (st1, [], some Err.candidateNotPending) := by
  rw [processLine, hcl]

theorem processLine_obsRecord {gen : State → List (String × Int)} {l : List Char}
    {st : State} (hcl : classify (pyStrip l) = LineClass.obsRecord) :
    processLine gen l st =
      match decodeObs (pyStrip l) with
      | none => (st, [], some Err.malformed)
      | some o =>
        match applyObs o st with
        | (st1, true) => finishLine gen st1
        | (st1, false) => (st1, [], some Err.candidateNotPending) := by
  rw [processLine, hcl]

theorem processLine_removeCmd_some {gen : State → List (String × Int)} {l : List Char}
    {st : State} {c : Candidate} (hcl : classify (pyStrip l) = LineClass.removeCmd)
    (hdec : decodeCandidate (pyStrip ((pyStrip l).drop markerL.length)) = some c) :
    processLine gen l st =
      match remove_pending_candidate c st with
      | (st1, true) => (st1, [], none)
      | (st1, false) => (st1, [], some Err.candidateNotPending) := by
  rw [processLine_removeCmd hcl, hdec]

theorem processLine_obsRecord_some {gen : State → List (String × Int)} {l : List Char}
    {st : State} {o : Observation} (hcl : classify (pyStrip l) = LineClass.obsRecord)
    (hdec : decodeObs (pyStrip l) = some o) :
    processLine gen l st =
      match applyObs o st with
      | (st1, true) => finishLine gen st1
      | (st1, false) => (st1, [], some Err.candidateNotPending) := by
  rw [processLine_obsRecord hcl, hdec]

/-- `remove_pending_candidate` never touches the observation store or
the file. -/
theorem remove_pending_fields (c : Candidate) (st : State) :
    ((remove_pending_candidate c st).1).observations = st.observations ∧
      ((remove_pending_candidate c st).1).ledger = st.ledger := by
  rw [remove_pending_candidate]
  by_cases h : c ∈ st.pending_candidates <;> simp [h]

theorem containsSub_of_beginsWith {pat s : List Char} (h : beginsWith pat s = true) :
    containsSub pat s = true := by
  rw [beginsWith, decide_eq_true_eq] at h
  have hp : List.IsPrefix pat s := by
    rw [List.prefix_iff_eq_take]
    exact h.symm
  have hip : pat.isPrefixOf s = true := by
    rw [List.isPrefixOf_iff_prefix]
    exact hp
  cases s with
  | nil =>
    have : pat = [] := by simpa using hp.length_le
    subst this
    decide
  | cons c t =>
    rw [containsSub, hip]
    simp

theorem classify_removeCmd_of {response : List Char} (hne : response ≠ ackL)
    (hcs : containsSub markerL response = true) :
    classify response = LineClass.removeCmd := by
  rw [classify, if_neg hne, if_pos hcs]

theorem classify_obsRecord_of {response : List Char} (hne : response ≠ ackL)
    (hcs : containsSub markerL response = false) :
    classify response = LineClass.obsRecord := by
  rw [classify, if_neg hne, if_neg (by simp [hcs])]

/-! ## The claims -/

/-- C1: for every sequence of operations — loading observations (the
startup load replays the file this program maintains, modelled by the
`restart` step), generating candidates with freshly allocated ids,
resolving observations, and removing pending candidates — starting from
an empty store, empty pending set and empty file, at every point
between operations the candidate ids appearing across the observation
store and the pending set are pairwise distinct. -/
theorem C1_id_uniqueness {st : State} (h : Reach st) : (currentIds st).Nodup :=
  (reach_invariant h).2

/-- C2: `generate_id` returns the smallest positive integer that occurs
neither among the candidate ids of stored observations nor among the
ids of pending candidates (`currentIds`).  It is a pure function of the
state — deterministic and mutating nothing — by construction of the
embedding, mirroring that the Python method only reads
`self.observations` and `self.pending_candidates`. -/
theorem C2_smallest_free_id (st : State) :
    1 ≤ generate_id st ∧ generate_id st ∉ currentIds st ∧
      ∀ j : Int, 1 ≤ j → j < generate_id st → j ∈ currentIds st :=
  generate_id_spec st

/-- C4: for every observation whose candidate is currently pending:
with `contention_failure = true` the observation is appended neither to
the store nor to the ledger file, yet its candidate leaves the pending
set; with `contention_failure = false` it is appended to both and its
candidate leaves the pending set.  Either way the branch completes
without raising. -/
theorem C4_contention_exclusion (o : Observation) (st : State)
    (h : o.candidate ∈ st.pending_candidates) :
    applyObs o st =
      (if o.contention_failure then
        ({ st with pending_candidates :=
            st.pending_candidates.filter (fun x => x ≠ o.candidate) }, true)
      else
        ({ st with
            observations := st.observations ++ [o],
            ledger := st.ledger ++ [o],
            pending_candidates :=
              st.pending_candidates.filter (fun x => x ≠ o.candidate) }, true)) := by
  cases hcf : o.contention_failure with
  | false => simp [applyObs, remove_pending_candidate, hcf, h]
  | true => simp [applyObs, remove_pending_candidate, hcf, h]

/-- C10: an observation line with `contention_failure = false` whose
candidate is NOT pending first appends the observation to the in-memory
store and to the ledger file and only then raises the not-pending
failure: on this error the store and the ledger are changed, not left
intact.  Stated both for the observation branch (`applyObs`) and for
the full line processing. -/
theorem C10_mutate_then_raise (o : Observation) (st : State)
    (hcf : o.contention_failure = false)
    (hnp : o.candidate ∉ st.pending_candidates) :
    applyObs o st =
      ({ st with observations := st.observations ++ [o], ledger := st.ledger ++ [o] },
        false) ∧
    (∀ (gen : State → List (String × Int)) (l : List Char),
      pyStrip l ≠ ackL → containsSub markerL (pyStrip l) = false →
      decodeObs (pyStrip l) = some o →
      processLine gen l st =
        ({ st with observations := st.observations ++ [o], ledger := st.ledger ++ [o] },
          [], some Err.candidateNotPending)) := by
  have happ : applyObs o st =
      ({ st with observations := st.observations ++ [o], ledger := st.ledger ++ [o] },
        false) := by
    rw [applyObs, if_pos hcf, remove_pending_candidate, if_neg hnp]
  refine ⟨happ, ?_⟩
  intro gen l hne hcs hdec
  rw [processLine_obsRecord (classify_obsRecord_of hne hcs), hdec]
  show (match applyObs o st with
    | (st1, true) => finishLine gen st1
    | (st1, false) => (st1, [], some Err.candidateNotPending)) = _
  rw [happ]

/-- C3 (counterexample): the claim says every successfully processed
line — RemoveCommand lines included — yields one new pending candidate
and one reply.  But the `Remove` branch of `Optimizer.run` ends in
`continue`: a batch whose single line is a RemoveCommand is processed
without error, removes the pending candidate, and yields zero new
candidates and zero replies. -/
theorem C3_counterexample :
    processBatch sampleGen (markerL ++ encodeCand c11 ++ ['\n']) stP11 =
      (stEmpty, [], none) := by
  decide

/-- C3 (amended): every successfully processed line that is NOT
classified as a RemoveCommand (Ack lines and observation records)
generates exactly one fresh candidate, allocates its id, appends it to
the pending set and emits exactly one reply carrying it; a successfully
processed RemoveCommand line generates no candidate and emits no reply
(and records nothing in the store or the ledger). -/
theorem C3_one_reply_per_line (gen : State → List (String × Int)) (l : List Char)
    (st st' : State) (reps : List Candidate)
    (h : processLine gen l st = (st', reps, none)) :
    (classify (pyStrip l) = LineClass.removeCmd → reps = [] ∧
      st'.observations = st.observations ∧ st'.ledger = st.ledger) ∧
    (classify (pyStrip l) ≠ LineClass.removeCmd →
      ∃ st1 : State, reps = [⟨gen st1, generate_id st1⟩] ∧
        st' = { st1 with pending_candidates :=
          st1.pending_candidates ++ [⟨gen st1, generate_id st1⟩] }) := by
  constructor
  · intro hcl
    cases hdec : decodeCandidate (pyStrip ((pyStrip l).drop markerL.length)) with
    | none =>
      rw [processLine_removeCmd hcl, hdec] at h
      simp at h
    | some c =>
      rw [processLine_removeCmd_some hcl hdec] at h
      rcases hrm : remove_pending_candidate c st with ⟨st1, ok⟩
      rw [hrm] at h
      cases ok with
      | false => simp at h
      | true =>
        simp only [Prod.mk.injEq] at h
        obtain ⟨h1, h2, -⟩ := h
        subst h1
        refine ⟨h2.symm, ?_, ?_⟩
        · have hfld := (remove_pending_fields c st).1
          rw [hrm] at hfld
          exact hfld
        · have hfld := (remove_pending_fields c st).2
          rw [hrm] at hfld
          exact hfld
  · intro hcl
    cases hc : classify (pyStrip l) with
    | removeCmd => exact absurd hc hcl
    | ack =>
      rw [processLine_ack hc] at h
      simp only [finishLine, Prod.mk.injEq] at h
      obtain ⟨h1, h2, -⟩ := h
      exact ⟨st, h2.symm, h1.symm⟩
    | obsRecord =>
      cases hdec : decodeObs (pyStrip l) with
      | none =>
        rw [processLine_obsRecord hc, hdec] at h
        simp at h
      | some o =>
        rw [processLine_obsRecord_some hc hdec] at h
        rcases happ : applyObs o st with ⟨st1, ok⟩
        rw [happ] at h
        cases ok with
        | false => simp at h
        | true =>
          simp only [finishLine, Prod.mk.injEq] at h
          obtain ⟨h1, h2, -⟩ := h
          exact ⟨st1, h2.symm, h1.symm⟩

/-- C5 (counterexample): the code classifies a non-Ack line as a
RemoveCommand whenever the marker occurs ANYWHERE in the line
(`HEADER_REMOVE_CANDIDATE in response`), not only when the line begins
with it: `"x Remove: 1"` contains but does not begin with the marker,
yet is classified as a RemoveCommand. -/
theorem C5_counterexample :
    classify ("x Remove: 1".data) = LineClass.removeCmd ∧
      beginsWith markerL ("x Remove: 1".data) = false ∧
      "x Remove: 1".data ≠ ackL := by
  refine ⟨?_, by decide, by decide⟩
  decide

/-- C5 (amended): a non-Ack stripped line is classified as a
RemoveCommand exactly when it CONTAINS the marker `"Remove: "`; the
candidate JSON decoded is the line with its first `len("Remove: ")`
characters removed — which is the text following the marker precisely
when the line begins with the marker, the intended wire format.  In
that case the decoded candidate is dropped from the pending set and no
observation is recorded in the store or the ledger. -/
theorem C5_remove_classification (response : List Char) (h : response ≠ ackL)
    (gen : State → List (String × Int)) (l : List Char) (st : State) (c : Candidate) :
    (classify response = LineClass.removeCmd ↔ containsSub markerL response = true) ∧
    (pyStrip l = response → beginsWith markerL response = true →
      decodeCandidate (pyStrip (response.drop markerL.length)) = some c →
      c ∈ st.pending_candidates →
      processLine gen l st =
        ({ st with pending_candidates := st.pending_candidates.filter (fun x => x ≠ c) },
          [], none)) := by
  constructor
  · rw [classify, if_neg h]
    by_cases hcs : containsSub markerL response = true
    · simp [hcs]
    · simp [hcs]
  · intro hstrip hbegin hdec hmem
    have hcl : classify (pyStrip l) = LineClass.removeCmd := by
      rw [hstrip]
      exact classify_removeCmd_of h (containsSub_of_beginsWith hbegin)
    rw [processLine_removeCmd hcl, hstrip, hdec]
    show (match remove_pending_candidate c st with
      | (st1, true) => (st1, [], none)
      | (st1, false) => (st1, [], some Err.candidateNotPending)) = _
    rw [remove_pending_candidate, if_pos hmem]

/-- C6: removing a candidate from the pending set fails (with the
not-pending exception) exactly when no pending entry equals the given
candidate by full value — parameter mapping AND id, via equality on the
whole `Candidate` — and on failure the state, the ledger included, is
untouched; when a RemoveCommand line referencing a non-pending
candidate is processed, the loop aborts with `candidateNotPending` and
the whole state, ledger file included, is unchanged. -/
theorem C6_not_pending_failure (c : Candidate) (st : State)
    (gen : State → List (String × Int)) (l : List Char) :
    (remove_pending_candidate c st = (st, false) ↔ c ∉ st.pending_candidates) ∧
    (pyStrip l ≠ ackL → containsSub markerL (pyStrip l) = true →
      decodeCandidate (pyStrip ((pyStrip l).drop markerL.length)) = some c →
      c ∉ st.pending_candidates →
      processLine gen l st = (st, [], some Err.candidateNotPending)) := by
  constructor
  · rw [remove_pending_candidate]
    by_cases hmem : c ∈ st.pending_candidates
    · simp only [if_pos hmem, Prod.mk.injEq]
      constructor
      · intro h
        exact absurd h.2 (by simp)
      · intro h
        exact absurd hmem h
    · simp [if_neg hmem, hmem]
  · intro hne hcs hdec hmem
    rw [processLine_removeCmd (classify_removeCmd_of hne hcs), hdec]
    show (match remove_pending_candidate c st with
      | (st1, true) => (st1, [], none)
      | (st1, false) => (st1, [], some Err.candidateNotPending)) = _
    rw [remove_pending_candidate, if_neg hmem]

/-- C7 (counterexample): the claim says the loop returns EXACTLY when
the store size exceeds 500.  But `Optimizer.run` also returns when the
channel reports end-of-stream (`EOFError`): a run whose input closes
immediately returns with an empty store, far below the threshold. -/
theorem C7_counterexample :
    run sampleGen [] stEmpty = (stEmpty, [], StopReason.eof) ∧ ¬ overLimit stEmpty := by
  decide

/-- C7 (amended): the loop returns with the stopping predicate exactly
at the first batch boundary at which the store size exceeds
`MAX_OBSERVATIONS` (500) — never earlier, the predicate being evaluated
only between batches — and additionally returns when the channel
reports end-of-stream; raised protocol errors aside, there is no other
way to stop. -/
theorem C7_stopping (gen : State → List (String × Int)) (bs : List (List Char))
    (st : State) :
    (∀ k, k ≤ bs.length → noErrUpTo gen bs st k →
      (∀ j, j < k → ¬ overLimit (stAfter gen (bs.take j) st)) →
      overLimit (stAfter gen (bs.take k) st) →
      (run gen bs st).1 = stAfter gen (bs.take k) st ∧
        (run gen bs st).2.2 = StopReason.threshold) ∧
    (noErrUpTo gen bs st bs.length →
      (∀ j, j ≤ bs.length → ¬ overLimit (stAfter gen (bs.take j) st)) →
      (run gen bs st).1 = stAfter gen bs st ∧
        (run gen bs st).2.2 = StopReason.eof) :=
  ⟨fun k hk h1 h2 h3 => run_stops_at_threshold gen bs st k hk h1 h2 h3,
    fun h1 h2 => run_eof_spec gen bs st h1 h2⟩

/-- C8: appending N observations to the ledger (one JSON record per
line, in order) and reloading the file from scratch reconstructs the
in-memory observation sequence exactly — order and content — for every
reachable optimizer state.  (`candWF` is the Python typing fact that a
candidate dict has a single `"id"` key.) -/
theorem C8_ledger_roundtrip {st : State} (h : Reach st)
    (hwf : ∀ o ∈ st.observations, candWF o.candidate) :
    loadObservations (fileOf st.ledger) = some st.observations := by
  have hinv := reach_invariant h
  rw [hinv.1]
  exact loadObservations_fileOf hwf

/-- C9: for every received batch, exactly the newline-separated
segments preceding the final newline are processed
(`responses.split("\n")[:-1]`); characters after the last newline —
including a complete but unterminated final message — are silently
discarded, changing neither the outcome state, nor the replies, nor
raising an error. -/
theorem C9_tail_discarded (gen : State → List (String × Int)) (st : State) :
    (∀ s r : List Char, noNl r → processBatch gen (s ++ r) st = processBatch gen s st) ∧
    (∀ ls : List (List Char), (∀ l ∈ ls, noNl l) →
      processBatch gen (joinNl ls) st = processLines gen ls st) :=
  ⟨fun s _ hr => processBatch_drop_tail gen st hr s,
    fun _ hl => processBatch_joinNl gen st hl⟩

/-! ### Witnesses: the claim theorems applied at concrete inputs -/

theorem C1_id_uniqueness_witness : (currentIds stP11).Nodup :=
  C1_id_uniqueness (Reach.generate [("x", 1)] Reach.init)

theorem C2_smallest_free_id_witness :
    generate_id st124 = 3 ∧ (1 : Int) ≤ 2 ∧ 2 < generate_id st124 ∧
      2 ∈ currentIds st124 :=
  ⟨by decide, by decide, by decide,
    (C2_smallest_free_id st124).2.2 2 (by decide) (by decide)⟩

theorem C3_one_reply_per_line_witness :
    processLine sampleGen ackL stEmpty = (stP11, [c11], none) ∧
    (classify (pyStrip ackL) ≠ LineClass.removeCmd →
      ∃ st1 : State, [c11] = [(⟨sampleGen st1, generate_id st1⟩ : Candidate)] ∧
        stP11 = { st1 with pending_candidates :=
          st1.pending_candidates ++ [⟨sampleGen st1, generate_id st1⟩] }) :=
  ⟨by decide,
    (C3_one_reply_per_line sampleGen ackL stEmpty stP11 [c11] (by decide)).2⟩

theorem C4_contention_exclusion_witness :
    o11c.candidate ∈ stP11.pending_candidates ∧
      applyObs o11c stP11 =
        (if o11c.contention_failure then
          ({ stP11 with pending_candidates :=
              stP11.pending_candidates.filter (fun x => x ≠ o11c.candidate) }, true)
        else
          ({ stP11 with
              observations := stP11.observations ++ [o11c],
              ledger := stP11.ledger ++ [o11c],
              pending_candidates :=
                stP11.pending_candidates.filter (fun x => x ≠ o11c.candidate) }, true)) :=
  ⟨by decide, C4_contention_exclusion o11c stP11 (by decide)⟩

theorem C5_remove_classification_witness :
    markerL ++ encodeCand c11 ≠ ackL ∧
      processLine sampleGen (markerL ++ encodeCand c11) stP11 =
        ({ stP11 with
            pending_candidates := stP11.pending_candidates.filter (fun x => x ≠ c11) },
          [], none) :=
  ⟨by decide,
    (C5_remove_classification (markerL ++ encodeCand c11) (by decide) sampleGen
      (markerL ++ encodeCand c11) stP11 c11).2 (by decide) (by decide) (by decide)
      (by decide)⟩

theorem C6_not_pending_failure_witness :
    c21.id = c11.id ∧ c21 ∉ stP11.pending_candidates ∧
      processLine sampleGen (markerL ++ encodeCand c21) stP11 =
        (stP11, [], some Err.candidateNotPending) :=
  ⟨by decide, by decide,
    (C6_not_pending_failure c21 stP11 sampleGen (markerL ++ encodeCand c21)).2
      (by decide) (by decide) (by decide) (by decide)⟩

theorem C7_stopping_witness :
    (run sampleGen [] stEmpty).1 = stAfter sampleGen [] stEmpty ∧
      (run sampleGen [] stEmpty).2.2 = StopReason.eof :=
  (C7_stopping sampleGen [] stEmpty).2 trivial
    (by
      intro j _
      rw [List.take_nil]
      decide)

theorem C8_ledger_roundtrip_witness :
    loadObservations (fileOf [o11]) = some [o11] := by
  have hr : Reach { observations := [o11], pending_candidates := [], ledger := [o11] } :=
    Reach.resolve o11 (Reach.generate [("x", 1)] Reach.init) (by decide)
  exact C8_ledger_roundtrip hr (by decide)

theorem C9_tail_discarded_witness :
    processBatch sampleGen (('{' :: '}' :: '\n' :: []) ++ ('{' :: '}' :: [])) stEmpty =
      processBatch sampleGen ('{' :: '}' :: '\n' :: []) stEmpty :=
  (C9_tail_discarded sampleGen stEmpty).1 ('{' :: '}' :: '\n' :: []) ('{' :: '}' :: [])
    (by decide)

theorem C10_mutate_then_raise_witness :
    o11.contention_failure = false ∧ o11.candidate ∉ stEmpty.pending_candidates ∧
      applyObs o11 stEmpty =
        ({ stEmpty with
            observations := stEmpty.observations ++ [o11],
            ledger := stEmpty.ledger ++ [o11] }, false) :=
  ⟨by decide, by decide, (C10_mutate_then_raise o11 stEmpty (by decide) (by decide)).1⟩

end Dopt
